import Mathlib

/-
Verification of the LaserSnap acquisition sequencer, its durable CSV ledger,
the file-arrival watcher, the resume path, and the cube aggregation engine,
as implemented in LaserSnapV2.py.  Each Lean definition is a shallow
embedding of the corresponding Python function; machine-level details that
no claim depends on (wall-clock timestamps, UI widgets, actual device I/O)
are abstracted into explicit parameters and event traces.
-/

set_option autoImplicit false

namespace LaserSnap

/-! ## Ledger records

The ledger file is a CSV table with the header row
`Index, Wavelength, Picture_Number, Expected_Name, Raw_Filename, Status,
Timestamp, File_Size_Bytes` followed by one row per acquisition step.
A `Record` is one data row.  The header row is mandatory (it is written by
`create_acquisition_log_file` before any upsert), so a ledger file is
modelled by its list of data rows. -/

structure Record where
  index : Nat
  wavelength : String
  picNum : Nat
  expectedName : String
  rawFilename : String
  status : String
  timestamp : String
  fileSize : Nat
deriving DecidableEq, Repr

/-- Embedding of `update_acquisition_log` (LaserSnapV2.py lines 82-111).
The Python function reads every row of the CSV file, scans the data rows
for the first row whose `Index` field equals the new entry, overwrites
that row in place if found, otherwise appends the new row at the end
(the file always holds the header row, so `existing_data` is non-empty
and the append branch fires), and finally rewrites the whole file.
The function below is that read-modify-rewrite cycle on the data rows:
it returns the complete new contents of the ledger file. -/
def update_acquisition_log (r : Record) : List Record → List Record
  | [] => [r]
  | x :: xs => if x.index = r.index then r :: xs else x :: update_acquisition_log r xs

/-- The data rows of a ledger whose `Index` field equals `i`. -/
def recordsFor (i : Nat) (L : List Record) : List Record :=
  L.filter (fun x => x.index = i)

@[simp]
theorem recordsFor_nil (i : Nat) : recordsFor i [] = [] := rfl

theorem recordsFor_cons (i : Nat) (x : Record) (xs : List Record) :
    recordsFor i (x :: xs) =
      if x.index = i then x :: recordsFor i xs else recordsFor i xs := by
  simp only [recordsFor, List.filter_cons]
  by_cases h : x.index = i <;> simp [h]

/-- Upserting `r` does not touch rows whose index differs from `r.index`. -/
theorem recordsFor_update_ne (r : Record) (L : List Record) (j : Nat)
    (h : j ≠ r.index) : recordsFor j (update_acquisition_log r L) = recordsFor j L := by
  induction L with
  | nil =>
    simp [update_acquisition_log, recordsFor_cons, Ne.symm h]
  | cons x xs ih =>
    by_cases hx : x.index = r.index
    · have hxj : ¬ x.index = j := by rw [hx]; exact Ne.symm h
      simp [update_acquisition_log, hx, recordsFor_cons, hxj, Ne.symm h]
    · simp only [update_acquisition_log, hx, if_false, recordsFor_cons]
      by_cases hxj : x.index = j <;> simp [hxj, ih]

/-- If the ledger held at most one row for `r.index`, then after the upsert
it holds exactly the row `r` for that index. -/
theorem recordsFor_update_self (r : Record) (L : List Record)
    (h : (recordsFor r.index L).length ≤ 1) :
    recordsFor r.index (update_acquisition_log r L) = [r] := by
  induction L with
  | nil => simp [update_acquisition_log, recordsFor_cons]
  | cons x xs ih =>
    by_cases hx : x.index = r.index
    · have hxs : recordsFor r.index xs = [] := by
        rw [recordsFor_cons, if_pos hx] at h
        simpa using List.eq_nil_of_length_eq_zero (Nat.le_zero.mp (Nat.lt_succ_iff.mp h))
      simp [update_acquisition_log, hx, recordsFor_cons, hxs]
    · rw [recordsFor_cons, if_neg hx] at h
      simp [update_acquisition_log, hx, recordsFor_cons, ih h]

/-- At-most-one-row-per-index is preserved by every upsert. -/
theorem recordsFor_update_le_one (r : Record) (L : List Record)
    (h : ∀ i, (recordsFor i L).length ≤ 1) (i : Nat) :
    (recordsFor i (update_acquisition_log r L)).length ≤ 1 := by
  by_cases hi : i = r.index
  · subst hi
    rw [recordsFor_update_self r L (h r.index)]
    simp
  · rw [recordsFor_update_ne r L i hi]
    exact h i

/-- Folding a batch of upserts over a ledger. -/
def applyUpserts (rs : List Record) (L : List Record) : List Record :=
  rs.foldl (fun acc r => update_acquisition_log r acc) L

@[simp]
theorem applyUpserts_nil (L : List Record) : applyUpserts [] L = L := rfl

@[simp]
theorem applyUpserts_cons (r : Record) (rs : List Record) (L : List Record) :
    applyUpserts (r :: rs) L = applyUpserts rs (update_acquisition_log r L) := rfl

/-- Upserting a record whose index is absent from the ledger appends it. -/
theorem update_of_fresh (r : Record) (L : List Record)
    (h : ∀ x ∈ L, x.index ≠ r.index) : update_acquisition_log r L = L ++ [r] := by
  induction L with
  | nil => rfl
  | cons x xs ih =>
    have hx : ¬ x.index = r.index := h x (List.mem_cons_self x xs)
    simp only [update_acquisition_log, hx, if_false, List.cons_append, List.cons.injEq,
      true_and]
    exact ih (fun y hy => h y (List.mem_cons_of_mem x hy))

/-- Upserting a batch of records with pairwise distinct indices, all absent
from the ledger, appends them in order. -/
theorem applyUpserts_of_fresh (rs : List Record) : ∀ (L : List Record),
    (∀ r ∈ rs, ∀ x ∈ L, x.index ≠ r.index) →
    rs.Pairwise (fun a b => a.index ≠ b.index) →
    applyUpserts rs L = L ++ rs := by
  induction rs with
  | nil => intro L _ _; simp
  | cons r rest ih =>
    intro L hfresh hpw
    rw [applyUpserts_cons, update_of_fresh r L (fun x hx => hfresh r (List.mem_cons_self r rest) x hx)]
    rw [ih (L ++ [r]) ?_ (List.Pairwise.of_cons hpw)]
    · simp
    · intro r' hr' x hx
      rcases List.mem_append.mp hx with hxL | hxr
      · exact hfresh r' (List.mem_cons_of_mem r hr') x hxL
      · have hx' : x = r := List.mem_singleton.mp hxr
        subst hx'
        exact (List.pairwise_cons.mp hpw).1 r' hr'

/-- C2: for every well-formed ledger file (at most one existing data row per
index, as every ledger the program creates satisfies) and every index, any
non-empty sequence of `update_acquisition_log` calls for that index leaves
exactly one persisted row for the index, holding the values of the latest
call, and leaves the rows of every other index untouched (so no duplicate
rows are ever created); the returned list is the complete rewritten file. -/
theorem C2_upsert_idempotent (rs : List Record) : ∀ (L : List Record) (i : Nat),
    (∀ r ∈ rs, r.index = i) →
    (recordsFor i L).length ≤ 1 →
    ∀ rlast, rs.getLast? = some rlast →
    recordsFor i (applyUpserts rs L) = [rlast] ∧
      ∀ j, j ≠ i → recordsFor j (applyUpserts rs L) = recordsFor j L := by
  induction rs with
  | nil => intro L i _ _ rlast hlast; simp at hlast
  | cons r rest ih =>
    intro L i hall hwf rlast hlast
    have hri : r.index = i := hall r (List.mem_cons_self r rest)
    cases rest with
    | nil =>
      have hr : r = rlast := by simpa using hlast
      subst hr
      constructor
      · rw [applyUpserts_cons, applyUpserts_nil, ← hri]
        exact recordsFor_update_self r L (hri ▸ hwf)
      · intro j hj
        rw [applyUpserts_cons, applyUpserts_nil]
        exact recordsFor_update_ne r L j (hri ▸ hj)
    | cons r' rest' =>
      have hlast' : (r' :: rest').getLast? = some rlast := by
        simpa [List.getLast?_cons_cons] using hlast
      have hwf' : (recordsFor i (update_acquisition_log r L)).length ≤ 1 := by
        rw [← hri, recordsFor_update_self r L (hri ▸ hwf)]
        simp
      obtain ⟨h1, h2⟩ := ih (update_acquisition_log r L) i
        (fun x hx => hall x (List.mem_cons_of_mem r hx)) hwf' rlast hlast'
      refine ⟨h1, fun j hj => ?_⟩
      rw [applyUpserts_cons, h2 j hj, recordsFor_update_ne r L j (hri ▸ hj)]

/-- C2 witness: a pending row upserted twice for index 0 (completed, then
timeout) leaves exactly the last row for index 0 and does not touch index 1. -/
theorem C2_upsert_idempotent_witness :
    recordsFor 0 (applyUpserts
        [⟨0, "500", 1, "p_500_1", "f.bin", "completed", "t1", 9⟩,
         ⟨0, "500", 1, "p_500_1", "", "timeout", "t2", 0⟩]
        [⟨0, "500", 1, "p_500_1", "", "pending", "t0", 0⟩]) =
      [⟨0, "500", 1, "p_500_1", "", "timeout", "t2", 0⟩] ∧
    recordsFor 1 (applyUpserts
        [⟨0, "500", 1, "p_500_1", "f.bin", "completed", "t1", 9⟩,
         ⟨0, "500", 1, "p_500_1", "", "timeout", "t2", 0⟩]
        [⟨0, "500", 1, "p_500_1", "", "pending", "t0", 0⟩]) =
      recordsFor 1 [⟨0, "500", 1, "p_500_1", "", "pending", "t0", 0⟩] := by
  have h := C2_upsert_idempotent
    [⟨0, "500", 1, "p_500_1", "f.bin", "completed", "t1", 9⟩,
     ⟨0, "500", 1, "p_500_1", "", "timeout", "t2", 0⟩]
    [⟨0, "500", 1, "p_500_1", "", "pending", "t0", 0⟩] 0
    (by decide) (by decide)
    ⟨0, "500", 1, "p_500_1", "", "timeout", "t2", 0⟩ (by decide)
  exact ⟨h.1, h.2 1 (by decide)⟩

/-! ## Plan expansion and ledger pre-population

`execute_commands` (lines 694-712) walks the operator-entered rows
`(wavelength, number of pictures)` of the tree view, expands them into the
in-memory `acquisition_log` list (one entry per shot, with a running
`acquisition_index` and a 1-based picture number per row), and upserts a
`pending` row into the fresh ledger file for each entry. -/

structure PlanRow where
  wavelength : String
  count : Nat
deriving DecidableEq, Repr

structure Entry where
  index : Nat
  wavelength : String
  picNum : Nat
  expectedName : String
deriving DecidableEq, Repr

/-- `expected_name = f"{project_name}_{wavelength}_{i}"` (line 701). -/
def expected_name (proj w : String) (i : Nat) : String :=
  proj ++ "_" ++ w ++ "_" ++ toString i

/-- Expansion of the plan rows starting at a given running index. -/
def expandFrom (proj : String) : Nat → List PlanRow → List Entry
  | _, [] => []
  | s, row :: rest =>
      ((List.range row.count).map (fun k =>
        { index := s + k, wavelength := row.wavelength, picNum := k + 1,
          expectedName := expected_name proj row.wavelength (k + 1) })) ++
      expandFrom proj (s + row.count) rest

/-- The `acquisition_log` list built by `execute_commands` (lines 695-712). -/
def build_acquisition_log (proj : String) (plan : List PlanRow) : List Entry :=
  expandFrom proj 0 plan

/-- Total number of shots in a plan. -/
def totalShots : List PlanRow → Nat
  | [] => 0
  | row :: rest => row.count + totalShots rest

/-- The `pending` ledger row written for an entry during pre-population. -/
def pendingRecord (ts : String) (e : Entry) : Record :=
  { index := e.index, wavelength := e.wavelength, picNum := e.picNum,
    expectedName := e.expectedName, rawFilename := "", status := "pending",
    timestamp := ts, fileSize := 0 }

/-- Pre-population of the fresh ledger file: one upsert per entry onto the
header-only file (no data rows yet). -/
def prepopulate (ts : String) (entries : List Entry) : List Record :=
  applyUpserts (entries.map (pendingRecord ts)) []

theorem expandFrom_length (proj : String) :
    ∀ (plan : List PlanRow) (s : Nat), (expandFrom proj s plan).length = totalShots plan := by
  intro plan
  induction plan with
  | nil => intro s; rfl
  | cons row rest ih => intro s; simp [expandFrom, totalShots, ih]

theorem expandFrom_map_index (proj : String) :
    ∀ (plan : List PlanRow) (s : Nat),
      (expandFrom proj s plan).map Entry.index = List.range' s (totalShots plan) := by
  intro plan
  induction plan with
  | nil => intro s; rfl
  | cons row rest ih =>
    intro s
    have hblock : ((List.range row.count).map (fun k =>
        ({ index := s + k, wavelength := row.wavelength, picNum := k + 1,
           expectedName := expected_name proj row.wavelength (k + 1) } : Entry))).map Entry.index
        = List.range' s row.count := by
      rw [List.map_map, List.range'_eq_map_range]
      rfl
    simp only [expandFrom, List.map_append, hblock, ih, totalShots]
    exact (List.range'_append_1 s row.count (totalShots rest)).trans (by rw [Nat.add_comm])

theorem build_map_index (proj : String) (plan : List PlanRow) :
    (build_acquisition_log proj plan).map Entry.index = List.range (totalShots plan) := by
  rw [build_acquisition_log, expandFrom_map_index, List.range_eq_range']

@[simp]
theorem pendingRecord_index (ts : String) (e : Entry) :
    (pendingRecord ts e).index = e.index := rfl

@[simp]
theorem pendingRecord_status (ts : String) (e : Entry) :
    (pendingRecord ts e).status = "pending" := rfl

theorem expandFrom_map_wavePic (proj : String) :
    ∀ (plan : List PlanRow) (s : Nat),
      (expandFrom proj s plan).map (fun e => (e.wavelength, e.picNum)) =
        plan.flatMap (fun row => (List.range row.count).map (fun k => (row.wavelength, k + 1))) := by
  intro plan
  induction plan with
  | nil => intro s; rfl
  | cons row rest ih =>
    intro s
    simp only [expandFrom, List.map_append, List.map_map, ih, List.flatMap_cons,
      List.append_cancel_right_eq]
    rfl

/-- Entries produced by plan expansion have pairwise distinct indices. -/
theorem build_pairwise_index (proj : String) (plan : List PlanRow) :
    (build_acquisition_log proj plan).Pairwise (fun a b => a.index ≠ b.index) := by
  have h : ((build_acquisition_log proj plan).map Entry.index).Nodup := by
    rw [build_map_index]
    exact List.nodup_range (totalShots plan)
  exact (List.pairwise_map.mp h)

/-- Pre-populating the fresh ledger writes exactly one pending row per
entry, in entry order. -/
theorem prepopulate_eq (ts proj : String) (plan : List PlanRow) :
    prepopulate ts (build_acquisition_log proj plan) =
      (build_acquisition_log proj plan).map (pendingRecord ts) := by
  unfold prepopulate
  rw [applyUpserts_of_fresh _ [] (by simp) ?_]
  · simp
  · rw [List.pairwise_map]
    have h := build_pairwise_index proj plan
    exact h.imp (fun hab => by simpa using hab)

/-- C1: expanding a plan yields one `AcquisitionStep` per shot: the number
of entries equals the sum of the shot counts, the indices are exactly
`0..N-1` in order (unique and contiguous), the wavelength and 1-based
picture number follow the plan rows in plan order, and the pre-populated
ledger holds exactly one row per entry, each with status `pending`. -/
theorem C1_plan_expansion (proj ts : String) (plan : List PlanRow) :
    (build_acquisition_log proj plan).length = totalShots plan ∧
    (build_acquisition_log proj plan).map Entry.index = List.range (totalShots plan) ∧
    (build_acquisition_log proj plan).map (fun e => (e.wavelength, e.picNum)) =
      plan.flatMap (fun row => (List.range row.count).map (fun k => (row.wavelength, k + 1))) ∧
    prepopulate ts (build_acquisition_log proj plan) =
      (build_acquisition_log proj plan).map (pendingRecord ts) ∧
    ∀ r ∈ prepopulate ts (build_acquisition_log proj plan), r.status = "pending" := by
  refine ⟨expandFrom_length proj plan 0, build_map_index proj plan,
    expandFrom_map_wavePic proj plan 0, prepopulate_eq ts proj plan, ?_⟩
  intro r hr
  rw [prepopulate_eq ts proj plan] at hr
  obtain ⟨e, _, he⟩ := List.mem_map.mp hr
  rw [← he]
  simp

/-! ## Acquisition sequencer driver loop

`execute_commands` (lines 714-797) walks the expanded `acquisition_log`
entries in order.  For each entry it sends `gowave`, waits a fixed settling
delay, sends the trigger, and invokes `wait_for_new_file`.  On a file it
upserts a `completed` row and continues; on a timeout it upserts a
`timeout` row, shows the continue prompt, and either continues or upserts
`cancelled` rows for `acquisition_log[index + 1:]` and breaks.

The environment is abstracted to two oracles: `watcher index` is the result
of `wait_for_new_file` for that step (`some (filename, size)` or `none`),
and `operator index` is the answer to the timeout prompt.  The trace of
observable actions is returned alongside the final ledger rows. -/

inductive Event where
  | setWavelength (idx : Nat) (w : String)
  | trigger (idx : Nat)
  | ledgerWrite (idx : Nat) (status : String)
  | promptContinue (idx : Nat)
deriving DecidableEq, Repr

/-- The `completed` row written on successful file detection (lines 741-755). -/
def completedRecord (ts : String) (e : Entry) (f : String) (sz : Nat) : Record :=
  { index := e.index, wavelength := e.wavelength, picNum := e.picNum,
    expectedName := e.expectedName, rawFilename := f, status := "completed",
    timestamp := ts, fileSize := sz }

/-- The `timeout` row written when no file arrives (lines 758-769). -/
def timeoutRecord (ts : String) (e : Entry) : Record :=
  { index := e.index, wavelength := e.wavelength, picNum := e.picNum,
    expectedName := e.expectedName, rawFilename := "", status := "timeout",
    timestamp := ts, fileSize := 0 }

/-- The `cancelled` row written for a remaining entry after the operator
declines to continue (lines 779-790). -/
def cancelledRecord (ts : String) (e : Entry) : Record :=
  { index := e.index, wavelength := e.wavelength, picNum := e.picNum,
    expectedName := e.expectedName, rawFilename := "", status := "cancelled",
    timestamp := ts, fileSize := 0 }

@[simp]
theorem completedRecord_index (ts : String) (e : Entry) (f : String) (sz : Nat) :
    (completedRecord ts e f sz).index = e.index := rfl

@[simp]
theorem timeoutRecord_index (ts : String) (e : Entry) : (timeoutRecord ts e).index = e.index := rfl

@[simp]
theorem cancelledRecord_index (ts : String) (e : Entry) :
    (cancelledRecord ts e).index = e.index := rfl

/-- Bulk `cancelled` upsert over the remaining entries (lines 780-790). -/
def cancelRemaining (ts : String) (rest : List Entry) (L : List Record) : List Record :=
  applyUpserts (rest.map (cancelledRecord ts)) L

/-- The sequential driver loop of `execute_commands` (lines 721-791),
processing the remaining entries against the ledger `L`.  `allEntries` is
the full `acquisition_log` list, needed for `acquisition_log[index + 1:]`
in the decline branch. -/
def execLoop (ts : String) (watcher : Nat → Option (String × Nat)) (operator : Nat → Bool)
    (allEntries : List Entry) : List Entry → List Record → List Record × List Event
  | [], L => (L, [])
  | e :: rest, L =>
    match watcher e.index with
    | some fs =>
      let L' := update_acquisition_log (completedRecord ts e fs.1 fs.2) L
      let res := execLoop ts watcher operator allEntries rest L'
      (res.1, Event.setWavelength e.index e.wavelength :: Event.trigger e.index ::
        Event.ledgerWrite e.index "completed" :: res.2)
    | none =>
      let L' := update_acquisition_log (timeoutRecord ts e) L
      if operator e.index then
        let res := execLoop ts watcher operator allEntries rest L'
        (res.1, Event.setWavelength e.index e.wavelength :: Event.trigger e.index ::
          Event.ledgerWrite e.index "timeout" :: Event.promptContinue e.index :: res.2)
      else
        (cancelRemaining ts (allEntries.drop (e.index + 1)) L',
          Event.setWavelength e.index e.wavelength :: Event.trigger e.index ::
            Event.ledgerWrite e.index "timeout" :: Event.promptContinue e.index ::
            (allEntries.drop (e.index + 1)).map (fun e2 => Event.ledgerWrite e2.index "cancelled"))

/-- Embedding of the acquisition part of `execute_commands` (lines 688-797):
expand the plan, pre-populate the ledger, then run the driver loop. -/
def execute_commands (ts proj : String) (watcher : Nat → Option (String × Nat))
    (operator : Nat → Bool) (plan : List PlanRow) : List Record × List Event :=
  let entries := build_acquisition_log proj plan
  execLoop ts watcher operator entries entries (prepopulate ts entries)

/-- The status the ledger reports for a step index, read like
`load_acquisition_from_csv` reads rows: the first row for that index. -/
def statusAt (L : List Record) (i : Nat) : Option String :=
  (L.find? (fun r => r.index = i)).map Record.status

theorem range'_drop : ∀ (m n s : Nat), (List.range' s n).drop m = List.range' (s + m) (n - m) := by
  intro m
  induction m with
  | zero => intro n s; simp
  | succ m ih =>
    intro n s
    cases n with
    | zero => simp
    | succ t =>
      rw [List.range'_succ, List.drop_succ_cons, ih t (s + 1)]
      congr 1 <;> omega

/-- `find?` by index is the head of `recordsFor`. -/
theorem find?_eq_head_recordsFor (L : List Record) (i : Nat) :
    L.find? (fun r => r.index = i) = (recordsFor i L).head? := by
  induction L with
  | nil => rfl
  | cons x xs ih =>
    by_cases hx : x.index = i
    · rw [recordsFor_cons, if_pos hx, List.find?_cons_of_pos _ (by simp [hx])]
      rfl
    · rw [recordsFor_cons, if_neg hx, List.find?_cons_of_neg _ (by simp [hx]), ih]

theorem statusAt_of_recordsFor (L : List Record) (i : Nat) (r : Record)
    (h : recordsFor i L = [r]) : statusAt L i = some r.status := by
  rw [statusAt, find?_eq_head_recordsFor, h]
  rfl

/-- A ledger whose indices are pairwise distinct has at most one row per index. -/
theorem recordsFor_le_one_of_nodup (L : List Record) (h : (L.map Record.index).Nodup) :
    ∀ i, (recordsFor i L).length ≤ 1 := by
  induction L with
  | nil => intro i; simp
  | cons x xs ih =>
    intro i
    rw [List.map_cons, List.nodup_cons] at h
    rw [recordsFor_cons]
    by_cases hx : x.index = i
    · have hxs : recordsFor i xs = [] := by
        rw [List.eq_nil_iff_forall_not_mem]
        intro y hy
        have hyi : y.index = i := by
          have := List.mem_filter.mp hy
          simpa using this.2
        exact h.1 (hx ▸ hyi ▸ List.mem_map_of_mem Record.index (List.mem_filter.mp hy).1)
      rw [if_pos hx, hxs]
      simp
    · rw [if_neg hx]
      exact ih h.2 i

/-- Entry lists whose indices form a `range'` have pairwise distinct indices. -/
theorem pairwise_index_of_range' (es : List Entry) (s n : Nat)
    (h : es.map Entry.index = List.range' s n) :
    es.Pairwise (fun a b => a.index ≠ b.index) := by
  have hnd : (es.map Entry.index).Nodup := by
    rw [h]
    exact List.nodup_range' s n
  exact List.pairwise_map.mp hnd

/-- The bulk cancel pass: every remaining entry ends with exactly its
`cancelled` row, and every other index is untouched. -/
theorem cancelRemaining_spec (ts : String) (es : List Entry) : ∀ (L : List Record),
    (∀ i, (recordsFor i L).length ≤ 1) →
    es.Pairwise (fun a b => a.index ≠ b.index) →
    (∀ e ∈ es, recordsFor e.index (cancelRemaining ts es L) = [cancelledRecord ts e]) ∧
    (∀ j, (∀ e ∈ es, j ≠ e.index) → recordsFor j (cancelRemaining ts es L) = recordsFor j L) := by
  induction es with
  | nil => intro L _ _; exact ⟨by simp, fun j _ => rfl⟩
  | cons e rest ih =>
    intro L hle hpw
    have hle' : ∀ i, (recordsFor i (update_acquisition_log (cancelledRecord ts e) L)).length ≤ 1 :=
      recordsFor_update_le_one _ L hle
    obtain ⟨ih1, ih2⟩ := ih (update_acquisition_log (cancelledRecord ts e) L) hle'
      (List.Pairwise.of_cons hpw)
    have hstep : cancelRemaining ts (e :: rest) L =
        cancelRemaining ts rest (update_acquisition_log (cancelledRecord ts e) L) := rfl
    constructor
    · intro e' he'
      rcases List.mem_cons.mp he' with he' | he'
      · subst he'
        rw [hstep, ih2 e'.index (fun x hx => (List.pairwise_cons.mp hpw).1 x hx)]
        have := recordsFor_update_self (cancelledRecord ts e') L (by simpa using hle e'.index)
        simpa using this
      · rw [hstep]
        exact ih1 e' he'
    · intro j hj
      rw [hstep, ih2 j (fun x hx => hj x (List.mem_cons_of_mem e hx)),
        recordsFor_update_ne _ L j (by simpa using hj e (List.mem_cons_self e rest))]

@[simp]
theorem completedRecord_status (ts : String) (e : Entry) (f : String) (sz : Nat) :
    (completedRecord ts e f sz).status = "completed" := rfl

@[simp]
theorem timeoutRecord_status (ts : String) (e : Entry) :
    (timeoutRecord ts e).status = "timeout" := rfl

@[simp]
theorem cancelledRecord_status (ts : String) (e : Entry) :
    (cancelledRecord ts e).status = "cancelled" := rfl

/-- In an entry list whose indices are `0..N-1` in order, the entry at
position `m` has index `m`. -/
theorem index_at (all : List Entry) (hidx : all.map Entry.index = List.range all.length)
    (m : Nat) (hm : m < all.length) : (all.get ⟨m, hm⟩).index = m := by
  have h1 : (all.map Entry.index)[m]? = (List.range all.length)[m]? := by rw [hidx]
  rw [List.getElem?_map, List.getElem?_range hm, List.getElem?_eq_getElem hm] at h1
  simpa using h1

theorem drop_map_index (all : List Entry) (hidx : all.map Entry.index = List.range all.length)
    (m : Nat) : (all.drop m).map Entry.index = List.range' m (all.length - m) := by
  rw [List.map_drop, hidx, List.range_eq_range', range'_drop]
  simp

theorem index_ge_of_mem_drop (all : List Entry)
    (hidx : all.map Entry.index = List.range all.length) (s : Nat) :
    ∀ e ∈ all.drop s, s ≤ e.index := by
  intro e he
  have hmem : e.index ∈ (all.drop s).map Entry.index := List.mem_map_of_mem Entry.index he
  rw [drop_map_index all hidx] at hmem
  exact (List.mem_range'_1.mp hmem).1

theorem exists_entry_of_lt (all : List Entry)
    (hidx : all.map Entry.index = List.range all.length) (k j : Nat)
    (hj1 : k < j) (hj2 : j < all.length) : ∃ e ∈ all.drop (k + 1), e.index = j := by
  have hmem : j ∈ (all.drop (k + 1)).map Entry.index := by
    rw [drop_map_index all hidx, List.mem_range'_1]
    omega
  obtain ⟨e, he, hei⟩ := List.mem_map.mp hmem
  exact ⟨e, he, hei⟩

/-- Main halting lemma for the driver loop: if the watcher times out at step
`k`, the operator declines there, and every earlier step from `m` on either
got its file or was continued past, then running the loop from position `m`
cancels every later step, leaves step `k` at `timeout`, records every step
in `[m, k)` according to its own watcher outcome, leaves indices below `m`
untouched, and issues device commands only for steps `m..k`. -/
theorem execLoop_decline_spec (ts : String) (watcher : Nat → Option (String × Nat))
    (operator : Nat → Bool) (all : List Entry)
    (hidx : all.map Entry.index = List.range all.length) (k : Nat)
    (hk : k < all.length) (hwk : watcher k = none) (hok : operator k = false) :
    ∀ (n m : Nat), k - m = n → m ≤ k →
    ∀ (L : List Record), (∀ i, (recordsFor i L).length ≤ 1) →
    (∀ j, m ≤ j → j < k → (watcher j).isSome = true ∨ operator j = true) →
    ∀ (L' : List Record) (tr : List Event),
      execLoop ts watcher operator all (all.drop m) L = (L', tr) →
    (∀ j, j < m → recordsFor j L' = recordsFor j L) ∧
    (∀ j, m ≤ j → j < k →
      statusAt L' j = some (if (watcher j).isSome then "completed" else "timeout")) ∧
    statusAt L' k = some "timeout" ∧
    (∀ j, k < j → j < all.length → statusAt L' j = some "cancelled") ∧
    (∀ j w, Event.setWavelength j w ∈ tr → m ≤ j ∧ j ≤ k) ∧
    (∀ j, Event.trigger j ∈ tr → m ≤ j ∧ j ≤ k) := by
  intro n
  induction n with
  | zero =>
    intro m hnm hmk L hle hreach L' tr hrun
    have hmk' : m = k := by omega
    subst hmk'
    have hdrop : all.drop m = (all.get ⟨m, hk⟩) :: all.drop (m + 1) := List.drop_eq_getElem_cons hk
    have he : (all.get ⟨m, hk⟩).index = m := index_at all hidx m hk
    rw [hdrop] at hrun
    simp only [execLoop, he, hwk, hok] at hrun
    injection hrun with hL htr
    subst hL
    subst htr
    have hle' : ∀ i,
        (recordsFor i (update_acquisition_log (timeoutRecord ts (all.get ⟨m, hk⟩)) L)).length ≤ 1 :=
      recordsFor_update_le_one _ L hle
    have hpw : (all.drop (m + 1)).Pairwise (fun a b => a.index ≠ b.index) :=
      pairwise_index_of_range' _ (m + 1) (all.length - (m + 1)) (drop_map_index all hidx (m + 1))
    obtain ⟨hc1, hc2⟩ := cancelRemaining_spec ts (all.drop (m + 1))
      (update_acquisition_log (timeoutRecord ts (all.get ⟨m, hk⟩)) L) hle' hpw
    have hne : ∀ j, j ≤ m → ∀ e ∈ all.drop (m + 1), j ≠ e.index := by
      intro j hj e hmem
      have := index_ge_of_mem_drop all hidx (m + 1) e hmem
      omega
    refine ⟨?_, ?_, ?_, ?_, ?_, ?_⟩
    · intro j hj
      rw [hc2 j (hne j (by omega)),
        recordsFor_update_ne _ L j (by simp only [timeoutRecord_index, he]; omega)]
    · intro j hj1 hj2
      omega
    · have hrec : recordsFor m
          (cancelRemaining ts (all.drop (m + 1))
            (update_acquisition_log (timeoutRecord ts (all.get ⟨m, hk⟩)) L)) =
          [timeoutRecord ts (all.get ⟨m, hk⟩)] := by
        rw [hc2 m (hne m (le_refl m))]
        have h2 := recordsFor_update_self (timeoutRecord ts (all.get ⟨m, hk⟩)) L
          (by simp only [timeoutRecord_index, he]; exact hle m)
        simp only [timeoutRecord_index, he] at h2
        exact h2
      rw [statusAt_of_recordsFor _ m _ hrec]
      simp
    · intro j hj1 hj2
      obtain ⟨e, hmem, hei⟩ := exists_entry_of_lt all hidx m j hj1 hj2
      have := hc1 e hmem
      rw [hei] at this
      rw [statusAt_of_recordsFor _ j _ this]
      simp
    · intro j w hj
      simp only [List.mem_cons, List.mem_map] at hj
      rcases hj with h | h | h | h | ⟨e2, _, h⟩ <;> simp_all
    · intro j hj
      simp only [List.mem_cons, List.mem_map] at hj
      rcases hj with h | h | h | h | ⟨e2, _, h⟩ <;> simp_all
  | succ n ih =>
    intro m hnm hmk L hle hreach L' tr hrun
    have hmk' : m < k := by omega
    have hm : m < all.length := Nat.lt_trans hmk' hk
    have hdrop : all.drop m = (all.get ⟨m, hm⟩) :: all.drop (m + 1) := List.drop_eq_getElem_cons hm
    have he : (all.get ⟨m, hm⟩).index = m := index_at all hidx m hm
    rw [hdrop] at hrun
    cases hw : watcher m with
    | some fs =>
      simp only [execLoop, he, hw] at hrun
      injection hrun with hL htr
      subst hL
      subst htr
      obtain ⟨ih1, ih2, ih3, ih4, ih5, ih6⟩ := ih (m + 1) (by omega) (by omega)
        (update_acquisition_log (completedRecord ts (all.get ⟨m, hm⟩) fs.1 fs.2) L)
        (recordsFor_update_le_one _ L hle)
        (fun j hj1 hj2 => hreach j (by omega) hj2) _ _ rfl
      refine ⟨?_, ?_, ih3, ih4, ?_, ?_⟩
      · intro j hj
        rw [ih1 j (by omega),
          recordsFor_update_ne _ L j (by simp only [completedRecord_index, he]; omega)]
      · intro j hj1 hj2
        rcases Nat.eq_or_lt_of_le hj1 with hj | hj
        · subst hj
          have h2 := recordsFor_update_self (completedRecord ts (all.get ⟨m, hm⟩) fs.1 fs.2) L
            (by simp only [completedRecord_index, he]; exact hle m)
          simp only [completedRecord_index, he] at h2
          have hrec := (ih1 m (by omega)).trans h2
          rw [statusAt_of_recordsFor _ m _ hrec]
          simp [hw]
        · exact ih2 j hj hj2
      · intro j w hj
        rcases List.mem_cons.mp hj with h | hj
        · have : j = m := by injection h with h1 h2
          omega
        rcases List.mem_cons.mp hj with h | hj
        · exact absurd h (by simp)
        rcases List.mem_cons.mp hj with h | hj
        · exact absurd h (by simp)
        · have := ih5 j w hj
          omega
      · intro j hj
        rcases List.mem_cons.mp hj with h | hj
        · exact absurd h (by simp)
        rcases List.mem_cons.mp hj with h | hj
        · have : j = m := by injection h
          omega
        rcases List.mem_cons.mp hj with h | hj
        · exact absurd h (by simp)
        · have := ih6 j hj
          omega
    | none =>
      have hop : operator m = true := by
        rcases hreach m (le_refl m) hmk' with h | h
        · rw [hw] at h
          simp at h
        · exact h
      simp only [execLoop, he, hw, hop] at hrun
      injection hrun with hL htr
      subst hL
      subst htr
      obtain ⟨ih1, ih2, ih3, ih4, ih5, ih6⟩ := ih (m + 1) (by omega) (by omega)
        (update_acquisition_log (timeoutRecord ts (all.get ⟨m, hm⟩)) L)
        (recordsFor_update_le_one _ L hle)
        (fun j hj1 hj2 => hreach j (by omega) hj2) _ _ rfl
      refine ⟨?_, ?_, ih3, ih4, ?_, ?_⟩
      · intro j hj
        rw [ih1 j (by omega),
          recordsFor_update_ne _ L j (by simp only [timeoutRecord_index, he]; omega)]
      · intro j hj1 hj2
        rcases Nat.eq_or_lt_of_le hj1 with hj | hj
        · subst hj
          have h2 := recordsFor_update_self (timeoutRecord ts (all.get ⟨m, hm⟩)) L
            (by simp only [timeoutRecord_index, he]; exact hle m)
          simp only [timeoutRecord_index, he] at h2
          have hrec := (ih1 m (by omega)).trans h2
          rw [statusAt_of_recordsFor _ m _ hrec]
          simp [hw]
        · exact ih2 j hj hj2
      · intro j w hj
        rcases List.mem_cons.mp hj with h | hj
        · have : j = m := by injection h with h1 h2
          omega
        rcases List.mem_cons.mp hj with h | hj
        · exact absurd h (by simp)
        rcases List.mem_cons.mp hj with h | hj
        · exact absurd h (by simp)
        rcases List.mem_cons.mp hj with h | hj
        · exact absurd h (by simp)
        · have := ih5 j w hj
          omega
      · intro j hj
        rcases List.mem_cons.mp hj with h | hj
        · exact absurd h (by simp)
        rcases List.mem_cons.mp hj with h | hj
        · have : j = m := by injection h
          omega
        rcases List.mem_cons.mp hj with h | hj
        · exact absurd h (by simp)
        rcases List.mem_cons.mp hj with h | hj
        · exact absurd h (by simp)
        · have := ih6 j hj
          omega

/-- C4: if the watcher times out at step `k`, the operator declines, and the
run reached step `k` (every earlier step either produced a file or was
continued past its own timeout), then every step after `k` is upserted with
status `cancelled`, step `k` itself is recorded `timeout`, every earlier
step keeps the status its own outcome gave it, and no device command
(`setWavelength` or `trigger`) is ever issued for a step after `k`. -/
theorem C4_decline_cancels_rest (ts proj : String) (watcher : Nat → Option (String × Nat))
    (operator : Nat → Bool) (plan : List PlanRow) (k : Nat)
    (hk : k < totalShots plan)
    (hwk : watcher k = none) (hok : operator k = false)
    (hreach : ∀ j, j < k → (watcher j).isSome = true ∨ operator j = true) :
    (∀ j, k < j → j < totalShots plan →
      statusAt (execute_commands ts proj watcher operator plan).1 j = some "cancelled") ∧
    statusAt (execute_commands ts proj watcher operator plan).1 k = some "timeout" ∧
    (∀ j, j < k → statusAt (execute_commands ts proj watcher operator plan).1 j =
      some (if (watcher j).isSome then "completed" else "timeout")) ∧
    (∀ j w, Event.setWavelength j w ∈ (execute_commands ts proj watcher operator plan).2 →
      j ≤ k) ∧
    (∀ j, Event.trigger j ∈ (execute_commands ts proj watcher operator plan).2 → j ≤ k) := by
  have hlen : (build_acquisition_log proj plan).length = totalShots plan :=
    expandFrom_length proj plan 0
  have hidx : (build_acquisition_log proj plan).map Entry.index =
      List.range (build_acquisition_log proj plan).length := by
    rw [hlen]
    exact build_map_index proj plan
  have hle : ∀ i, (recordsFor i (prepopulate ts (build_acquisition_log proj plan))).length ≤ 1 := by
    apply recordsFor_le_one_of_nodup
    rw [prepopulate_eq ts proj plan, List.map_map]
    have hcomp : (Record.index ∘ pendingRecord ts) = Entry.index := rfl
    rw [hcomp, build_map_index proj plan]
    exact List.nodup_range _
  obtain ⟨h1, h2, h3, h4, h5, h6⟩ := execLoop_decline_spec ts watcher operator
    (build_acquisition_log proj plan) hidx k (by rw [hlen]; exact hk) hwk hok
    k 0 (by omega) (Nat.zero_le k)
    (prepopulate ts (build_acquisition_log proj plan)) hle
    (fun j _ hj => hreach j hj)
    (execute_commands ts proj watcher operator plan).1
    (execute_commands ts proj watcher operator plan).2
    (by rw [List.drop_zero]; rfl)
  exact ⟨fun j hj1 hj2 => h4 j hj1 (by rw [hlen]; exact hj2), h3,
    fun j hj => h2 j (Nat.zero_le j) hj,
    fun j w hj => (h5 j w hj).2, fun j hj => (h6 j hj).2⟩

/-- C4 witness: for the plan `[("500", 2), ("600", 1)]` where step 0 gets a
file, step 1 times out and the operator declines, step 2 ends `cancelled`,
step 1 ends `timeout`, step 0 ends `completed`, and no `setWavelength` for
step 2 appears in the trace. -/
theorem C4_decline_cancels_rest_witness :
    statusAt (execute_commands "t" "p"
      (fun j => if j = 0 then some ("f0.bin", 5) else none) (fun _ => false)
      [⟨"500", 2⟩, ⟨"600", 1⟩]).1 2 = some "cancelled" ∧
    statusAt (execute_commands "t" "p"
      (fun j => if j = 0 then some ("f0.bin", 5) else none) (fun _ => false)
      [⟨"500", 2⟩, ⟨"600", 1⟩]).1 1 = some "timeout" ∧
    statusAt (execute_commands "t" "p"
      (fun j => if j = 0 then some ("f0.bin", 5) else none) (fun _ => false)
      [⟨"500", 2⟩, ⟨"600", 1⟩]).1 0 = some "completed" := by
  have h := C4_decline_cancels_rest "t" "p"
    (fun j => if j = 0 then some ("f0.bin", 5) else none) (fun _ => false)
    [⟨"500", 2⟩, ⟨"600", 1⟩] 1
    (by decide) rfl rfl
    (fun j hj => by
      have hj0 : j = 0 := by omega
      subst hj0
      left
      rfl)
  refine ⟨h.1 2 (by decide) (by decide), h.2.1, ?_⟩
  have h0 := h.2.2.1 0 (by decide)
  simpa using h0

/-- In every trace the loop produces, a continue prompt for step `k` is
immediately preceded by the `timeout` ledger write for step `k`. -/
theorem execLoop_prompt_after_write (ts : String) (watcher : Nat → Option (String × Nat))
    (operator : Nat → Bool) (all : List Entry) :
    ∀ (rest : List Entry) (L L' : List Record) (tr : List Event),
      execLoop ts watcher operator all rest L = (L', tr) →
      ∀ k, Event.promptContinue k ∈ tr →
        List.Sublist [Event.ledgerWrite k "timeout", Event.promptContinue k] tr := by
  intro rest
  induction rest with
  | nil =>
    intro L L' tr hrun k hk
    injection hrun with h1 h2
    subst h2
    simp at hk
  | cons e rest2 ih =>
    intro L L' tr hrun k hk
    simp only [execLoop] at hrun
    cases hw : watcher e.index with
    | some fs =>
      rw [hw] at hrun
      injection hrun with h1 h2
      subst h2
      simp only [List.mem_cons] at hk
      rcases hk with h | h | h | h
      · exact absurd h (by simp)
      · exact absurd h (by simp)
      · exact absurd h (by simp)
      · exact ((ih _ _ _ rfl k h).cons _).cons _ |>.cons _
    | none =>
      rw [hw] at hrun
      cases hop : operator e.index with
      | true =>
        rw [hop] at hrun
        simp only [if_true] at hrun
        injection hrun with h1 h2
        subst h2
        simp only [List.mem_cons] at hk
        rcases hk with h | h | h | h | h
        · exact absurd h (by simp)
        · exact absurd h (by simp)
        · exact absurd h (by simp)
        · have hke : k = e.index := by injection h
          subst hke
          exact (((List.nil_sublist _).cons₂ _).cons₂ _).cons _ |>.cons _
        · exact (((ih _ _ _ rfl k h).cons _).cons _).cons _ |>.cons _
      | false =>
        rw [hop] at hrun
        simp only [if_false] at hrun
        injection hrun with h1 h2
        subst h2
        simp only [List.mem_cons, List.mem_map] at hk
        rcases hk with h | h | h | h | ⟨e2, _, h⟩
        · exact absurd h (by simp)
        · exact absurd h (by simp)
        · exact absurd h (by simp)
        · have hke : k = e.index := by injection h
          subst hke
          exact (((List.nil_sublist _).cons₂ _).cons₂ _).cons _ |>.cons _
        · exact absurd h (by simp)

/-- In every trace the loop produces from position `m`, a `setWavelength`
command for a later step `j2` is preceded by a terminal ledger write
(`completed` or `timeout`) for each earlier step `j ≥ m`. -/
theorem execLoop_write_before_setW (ts : String) (watcher : Nat → Option (String × Nat))
    (operator : Nat → Bool) (all : List Entry)
    (hidx : all.map Entry.index = List.range all.length) :
    ∀ (rest : List Entry) (m : Nat) (L L' : List Record) (tr : List Event),
      rest = all.drop m →
      execLoop ts watcher operator all rest L = (L', tr) →
      ∀ j j2 w2, m ≤ j → j < j2 → Event.setWavelength j2 w2 ∈ tr →
        ∃ s, (s = "completed" ∨ s = "timeout") ∧
          List.Sublist [Event.ledgerWrite j s, Event.setWavelength j2 w2] tr := by
  intro rest
  induction rest with
  | nil =>
    intro m L L' tr _ hrun j j2 w2 _ _ hmem
    injection hrun with h1 h2
    subst h2
    simp at hmem
  | cons e rest2 ih =>
    intro m L L' tr hdrop hrun j j2 w2 hmj hjj2 hmem
    have hm : m < all.length := by
      by_contra hcon
      rw [List.drop_eq_nil_of_le (by omega)] at hdrop
      exact List.cons_ne_nil e rest2 hdrop
    have hdrop2 : all.drop m = (all.get ⟨m, hm⟩) :: all.drop (m + 1) := List.drop_eq_getElem_cons hm
    rw [hdrop2] at hdrop
    have hee : e = all.get ⟨m, hm⟩ := (List.cons.injEq _ _ _ _ ▸ hdrop).1
    have hrest2 : rest2 = all.drop (m + 1) := (List.cons.injEq _ _ _ _ ▸ hdrop).2
    have he : e.index = m := by rw [hee]; exact index_at all hidx m hm
    simp only [execLoop, he] at hrun
    cases hw : watcher m with
    | some fs =>
      rw [hw] at hrun
      injection hrun with h1 h2
      subst h2
      simp only [List.mem_cons] at hmem
      rcases hmem with h | h | h | h
      · have : j2 = m := by injection h
        omega
      · exact absurd h (by simp)
      · exact absurd h (by simp)
      · rcases Nat.eq_or_lt_of_le hmj with hj | hj
        · refine ⟨"completed", Or.inl rfl, ?_⟩
          subst hj
          exact ((List.singleton_sublist.mpr h).cons₂ _).cons _ |>.cons _
        · obtain ⟨s, hs, hsub⟩ := ih (m + 1) _ _ _ hrest2 rfl j j2 w2 (by omega) hjj2 h
          exact ⟨s, hs, ((hsub.cons _).cons _).cons _⟩
    | none =>
      rw [hw] at hrun
      cases hop : operator m with
      | true =>
        rw [hop] at hrun
        simp only [if_true] at hrun
        injection hrun with h1 h2
        subst h2
        simp only [List.mem_cons] at hmem
        rcases hmem with h | h | h | h | h
        · have : j2 = m := by injection h
          omega
        · exact absurd h (by simp)
        · exact absurd h (by simp)
        · exact absurd h (by simp)
        · rcases Nat.eq_or_lt_of_le hmj with hj | hj
          · refine ⟨"timeout", Or.inr rfl, ?_⟩
            subst hj
            exact (((List.singleton_sublist.mpr h).cons _).cons₂ _).cons _ |>.cons _
          · obtain ⟨s, hs, hsub⟩ := ih (m + 1) _ _ _ hrest2 rfl j j2 w2 (by omega) hjj2 h
            exact ⟨s, hs, (((hsub.cons _).cons _).cons _).cons _⟩
      | false =>
        rw [hop] at hrun
        simp only [if_false] at hrun
        injection hrun with h1 h2
        subst h2
        simp only [List.mem_cons, List.mem_map] at hmem
        rcases hmem with h | h | h | h | ⟨e2, _, h⟩
        · have : j2 = m := by injection h
          omega
        · exact absurd h (by simp)
        · exact absurd h (by simp)
        · exact absurd h (by simp)
        · exact absurd h (by simp)

/-- C9: in every run, each step's terminal outcome is written to the ledger
strictly before the sequencer decides whether to continue: a `timeout` ledger
write for step `k` occurs in the trace before the operator prompt for step
`k`, and a terminal (`completed` or `timeout`) ledger write for every earlier
step occurs before the `setWavelength` command that begins any later step. -/
theorem C9_write_before_decision (ts proj : String) (watcher : Nat → Option (String × Nat))
    (operator : Nat → Bool) (plan : List PlanRow) :
    (∀ k, Event.promptContinue k ∈ (execute_commands ts proj watcher operator plan).2 →
      List.Sublist [Event.ledgerWrite k "timeout", Event.promptContinue k]
        (execute_commands ts proj watcher operator plan).2) ∧
    (∀ j j2 w2, j < j2 →
      Event.setWavelength j2 w2 ∈ (execute_commands ts proj watcher operator plan).2 →
      ∃ s, (s = "completed" ∨ s = "timeout") ∧
        List.Sublist [Event.ledgerWrite j s, Event.setWavelength j2 w2]
          (execute_commands ts proj watcher operator plan).2) := by
  have hlen : (build_acquisition_log proj plan).length = totalShots plan :=
    expandFrom_length proj plan 0
  have hidx : (build_acquisition_log proj plan).map Entry.index =
      List.range (build_acquisition_log proj plan).length := by
    rw [hlen]
    exact build_map_index proj plan
  constructor
  · intro k hk
    exact execLoop_prompt_after_write ts watcher operator
      (build_acquisition_log proj plan) (build_acquisition_log proj plan)
      (prepopulate ts (build_acquisition_log proj plan))
      (execute_commands ts proj watcher operator plan).1
      (execute_commands ts proj watcher operator plan).2 rfl k hk
  · intro j j2 w2 hj hmem
    exact execLoop_write_before_setW ts watcher operator
      (build_acquisition_log proj plan) hidx (build_acquisition_log proj plan) 0
      (prepopulate ts (build_acquisition_log proj plan))
      (execute_commands ts proj watcher operator plan).1
      (execute_commands ts proj watcher operator plan).2
      (List.drop_zero _).symm rfl j j2 w2 (Nat.zero_le j) hj hmem

/-- C9 witness: in the concrete run where step 1 times out and the operator
continues, the `timeout` write for step 1 precedes the prompt for step 1,
and a terminal write for step 0 precedes the `setWavelength` of step 1. -/
theorem C9_write_before_decision_witness :
    List.Sublist [Event.ledgerWrite 1 "timeout", Event.promptContinue 1]
      (execute_commands "t" "p"
        (fun j => if j = 1 then none else some ("f.bin", 5)) (fun _ => true)
        [⟨"500", 2⟩, ⟨"600", 1⟩]).2 ∧
    ∃ s, (s = "completed" ∨ s = "timeout") ∧
      List.Sublist [Event.ledgerWrite 0 s, Event.setWavelength 1 "500"]
        (execute_commands "t" "p"
          (fun j => if j = 1 then none else some ("f.bin", 5)) (fun _ => true)
          [⟨"500", 2⟩, ⟨"600", 1⟩]).2 := by
  have h := C9_write_before_decision "t" "p"
    (fun j => if j = 1 then none else some ("f.bin", 5)) (fun _ => true)
    [⟨"500", 2⟩, ⟨"600", 1⟩]
  exact ⟨h.1 1 (by decide), h.2 0 1 "500" (by decide) (by decide)⟩

/-! ## File-arrival watcher

`wait_for_new_file` (lines 114-154) snapshots the folder listing, then polls
once per second: it lists the folder, takes the set difference against the
baseline, and for each new `.bin` file reads its size, sleeps two seconds,
re-reads the size, and returns the file if the size is unchanged and
nonzero.  When the timeout elapses with no accepted candidate it returns
`None`; it also returns `None` immediately when the raw-data folder is
unset or missing.

A `Poll` records what one loop iteration observes: the current listing and,
for each file, the size read at detection (`size1`) and the size re-read
after the two-second stability window (`size2`).  The number of polls is
the number of loop iterations that fit in the timeout.  Python iterates the
set difference in unspecified set order; the embedding uses listing order,
which no claim depends on. -/

structure Poll where
  listing : List String
  size1 : String → Nat
  size2 : String → Nat

/-- Embedding of the Python test `new_file.endswith('.bin')` (line 133),
phrased over the character list of the filename so that it evaluates. -/
def hasBinSuffix (f : String) : Bool :=
  ".bin".data.isSuffixOf f.data

/-- One iteration of the candidate scan (lines 128-144): the first new
`.bin` file whose size is stable and nonzero across the stability window. -/
def acceptCandidate (initial : List String) (p : Poll) : Option String :=
  (p.listing.filter (fun f => decide (f ∉ initial))).find?
    (fun f => hasBinSuffix f && p.size2 f == p.size1 f && decide (0 < p.size1 f))

/-- The polling loop of `wait_for_new_file` (lines 126-154). -/
def waitLoop (initial : List String) : List Poll → Option String
  | [] => none
  | p :: rest =>
    match acceptCandidate initial p with
    | some f => some f
    | none => waitLoop initial rest

/-- Embedding of `wait_for_new_file` (lines 114-154).  `folderOk` is the
guard `raw_data_folder and os.path.exists(raw_data_folder)`. -/
def wait_for_new_file (folderOk : Bool) (initial : List String) (polls : List Poll) :
    Option String :=
  if folderOk then waitLoop initial polls else none

theorem waitLoop_none (initial : List String) (polls : List Poll)
    (h : ∀ p ∈ polls, acceptCandidate initial p = none) : waitLoop initial polls = none := by
  induction polls with
  | nil => rfl
  | cons p rest ih =>
    have hp : acceptCandidate initial p = none := h p (List.mem_cons_self p rest)
    simp only [waitLoop, hp]
    exact ih (fun q hq => h q (List.mem_cons_of_mem p hq))

theorem waitLoop_some (initial : List String) (polls : List Poll) (f : String)
    (h : waitLoop initial polls = some f) : ∃ p ∈ polls, acceptCandidate initial p = some f := by
  induction polls with
  | nil => simp [waitLoop] at h
  | cons p rest ih =>
    by_cases hp : acceptCandidate initial p = none
    · simp only [waitLoop, hp] at h
      obtain ⟨q, hq, hqf⟩ := ih h
      exact ⟨q, List.mem_cons_of_mem p hq, hqf⟩
    · obtain ⟨g, hg⟩ := Option.ne_none_iff_exists'.mp hp
      simp only [waitLoop, hg] at h
      exact ⟨p, List.mem_cons_self p rest, by rw [hg, h]⟩

theorem acceptCandidate_some (initial : List String) (p : Poll) (f : String)
    (h : acceptCandidate initial p = some f) :
    f ∈ p.listing ∧ f ∉ initial ∧ hasBinSuffix f = true ∧
      p.size2 f = p.size1 f ∧ 0 < p.size1 f := by
  have hmem := List.mem_of_find?_eq_some h
  have hpred := List.find?_some h
  rw [List.mem_filter] at hmem
  simp only [Bool.and_eq_true, beq_iff_eq, decide_eq_true_eq] at hpred
  exact ⟨hmem.1, by simpa using hmem.2, hpred.1.1, hpred.1.2, hpred.2⟩

/-- C3: the watcher returns `none` when no new file matching the `.bin`
filter ever appears during the polls that fit in the timeout; it returns a
filename only if that file is newly created relative to the baseline
snapshot, matches the `.bin` filter, and its size re-read after the
stability window is unchanged and nonzero; and a file whose size changed
(or is zero) at the re-read is never returned by that check. -/
theorem C3_watcher_contract (folderOk : Bool) (initial : List String) (polls : List Poll) :
    ((∀ p ∈ polls, ∀ f ∈ p.listing, f ∉ initial → hasBinSuffix f = true → False) →
      wait_for_new_file folderOk initial polls = none) ∧
    (∀ f, wait_for_new_file folderOk initial polls = some f →
      ∃ p ∈ polls, f ∈ p.listing ∧ f ∉ initial ∧ hasBinSuffix f = true ∧
        p.size2 f = p.size1 f ∧ 0 < p.size1 f) ∧
    (∀ p ∈ polls, ∀ f, (p.size2 f ≠ p.size1 f ∨ p.size1 f = 0) →
      acceptCandidate initial p ≠ some f) := by
  refine ⟨?_, ?_, ?_⟩
  · intro h
    unfold wait_for_new_file
    cases folderOk with
    | false => rfl
    | true =>
      simp only [if_true]
      apply waitLoop_none
      intro p hp
      rw [acceptCandidate, List.find?_eq_none]
      intro f hf
      rw [List.mem_filter] at hf
      have hnew : f ∉ initial := by simpa using hf.2
      simp only [Bool.and_eq_true, beq_iff_eq, decide_eq_true_eq]
      intro hpred
      exact h p hp f hf.1 hnew hpred.1.1
  · intro f hf
    unfold wait_for_new_file at hf
    cases folderOk with
    | false => simp at hf
    | true =>
      simp only [if_true] at hf
      obtain ⟨p, hp, hpf⟩ := waitLoop_some initial polls f hf
      exact ⟨p, hp, acceptCandidate_some initial p f hpf⟩
  · intro p _ f hbad hacc
    obtain ⟨_, _, _, hstable, hpos⟩ := acceptCandidate_some initial p f hacc
    rcases hbad with h | h
    · exact h hstable
    · omega

/-- C3 witness: with baseline `[old.bin]`, a poll showing only `old.bin`
yields `none`; a poll showing a new stable nonzero `a.bin` yields `a.bin`
with all the acceptance conditions; and a candidate whose size grew across
the stability window is rejected by that check. -/
theorem C3_watcher_contract_witness :
    wait_for_new_file true ["old.bin"] [⟨["old.bin"], fun _ => 3, fun _ => 3⟩] = none ∧
    (∃ p ∈ [(⟨["a.bin"], fun _ => 5, fun _ => 5⟩ : Poll)],
      "a.bin" ∈ p.listing ∧ "a.bin" ∉ ([] : List String) ∧
        hasBinSuffix "a.bin" = true ∧
        p.size2 "a.bin" = p.size1 "a.bin" ∧ 0 < p.size1 "a.bin") ∧
    acceptCandidate [] ⟨["grow.bin"], fun _ => 3, fun _ => 7⟩ ≠ some "grow.bin" := by
  refine ⟨?_, ?_, ?_⟩
  · exact (C3_watcher_contract true ["old.bin"]
      [⟨["old.bin"], fun _ => 3, fun _ => 3⟩]).1
      (by intro p hp f hf hnew hbin
          simp only [List.mem_singleton] at hp
          subst hp
          simp only [List.mem_singleton] at hf
          subst hf
          exact hnew (List.mem_singleton.mpr rfl))
  · exact (C3_watcher_contract true []
      [⟨["a.bin"], fun _ => 5, fun _ => 5⟩]).2.1 "a.bin" (by rfl)
  · exact (C3_watcher_contract true []
      [⟨["grow.bin"], fun _ => 3, fun _ => 7⟩]).2.2
      ⟨["grow.bin"], fun _ => 3, fun _ => 7⟩ (List.mem_singleton.mpr rfl)
      "grow.bin" (Or.inl (by decide))

/-! ## Loading incomplete acquisitions from the ledger

`load_acquisition_from_csv` (lines 163-205) reads the selected ledger with
a CSV dict reader and, for each row whose `Status` is `pending`, `timeout`
or `cancelled`, increments a per-wavelength counter in an insertion-ordered
dictionary; `completed` rows are skipped.  The dictionary is modelled by an
association list in insertion order. -/

structure CsvRow where
  wavelength : String
  status : String
deriving DecidableEq, Repr

/-- The status filter of line 186. -/
def isIncomplete (status : String) : Bool :=
  status == "pending" || status == "timeout" || status == "cancelled"

/-- `wavelength_dict[w] += 1` with default 0 (lines 187-190): increment the
first entry for the wavelength, or append a new one. -/
def bumpCount (w : String) : List (String × Nat) → List (String × Nat)
  | [] => [(w, 1)]
  | (w', n) :: rest => if w' = w then (w', n + 1) :: rest else (w', n) :: bumpCount w rest

/-- Embedding of the row loop of `load_acquisition_from_csv` (lines 182-190). -/
def load_acquisition_from_csv (rows : List CsvRow) : List (String × Nat) :=
  rows.foldl (fun d row => if isIncomplete row.status then bumpCount row.wavelength d else d) []

/-- The count the loaded dictionary reports for a wavelength. -/
def countFor (d : List (String × Nat)) (w : String) : Nat :=
  ((d.find? (fun e => e.1 = w)).map Prod.snd).getD 0

theorem countFor_bump_self (w : String) : ∀ (d : List (String × Nat)),
    countFor (bumpCount w d) w = countFor d w + 1 := by
  intro d
  induction d with
  | nil => simp [bumpCount, countFor]
  | cons e rest ih =>
    by_cases hw : e.1 = w
    · obtain ⟨w', n⟩ := e
      simp only at hw
      simp [bumpCount, hw, countFor, List.find?_cons_of_pos]
    · obtain ⟨w', n⟩ := e
      simp only at hw
      simp only [bumpCount, if_neg hw]
      rw [countFor, List.find?_cons_of_neg _ (by simpa using hw),
        countFor, List.find?_cons_of_neg _ (by simpa using hw)] at *
      exact ih

theorem countFor_bump_ne (w v : String) (hne : v ≠ w) : ∀ (d : List (String × Nat)),
    countFor (bumpCount w d) v = countFor d v := by
  intro d
  induction d with
  | nil => simp [bumpCount, countFor, List.find?_cons_of_neg, Ne.symm hne]
  | cons e rest ih =>
    obtain ⟨w', n⟩ := e
    by_cases hw : w' = w
    · subst hw
      have hb : bumpCount w' ((w', n) :: rest) = (w', n + 1) :: rest := by
        simp [bumpCount]
      rw [hb, countFor, List.find?_cons_of_neg _ (by simpa using Ne.symm hne),
        countFor, List.find?_cons_of_neg _ (by simpa using Ne.symm hne)]
    · simp only [bumpCount, if_neg hw]
      by_cases hv : w' = v
      · subst hv
        rw [countFor, List.find?_cons_of_pos _ (by simp),
          countFor, List.find?_cons_of_pos _ (by simp)]
      · rw [countFor, List.find?_cons_of_neg _ (by simpa using hv),
          countFor, List.find?_cons_of_neg _ (by simpa using hv)]
        exact ih

/-- Generalized accumulator form of the C5 counting property. -/
theorem load_csv_count_general (rows : List CsvRow) : ∀ (d : List (String × Nat)) (w : String),
    countFor (rows.foldl
      (fun d row => if isIncomplete row.status then bumpCount row.wavelength d else d) d) w =
    countFor d w +
      (rows.filter (fun row => row.wavelength == w && isIncomplete row.status)).length := by
  induction rows with
  | nil => intro d w; simp
  | cons row rest ih =>
    intro d w
    simp only [List.foldl_cons, List.filter_cons]
    by_cases hs : isIncomplete row.status
    · by_cases hw : row.wavelength = w
      · simp only [hs, if_true, hw, ih, countFor_bump_self]
        simp [hw, hs]
        omega
      · simp only [hs, if_true, ih, countFor_bump_ne row.wavelength w (Ne.symm hw)]
        simp [hw, hs]
    · simp only [hs, if_false, ih]
      simp [hs]

/-- C5: loading a ledger counts, per wavelength, exactly the rows whose
status is `pending`, `timeout` or `cancelled`; `completed` rows are
excluded; and on a ledger with one row of each status the three incomplete
ones are returned grouped by wavelength. -/
theorem C5_load_incomplete (rows : List CsvRow) (w : String) :
    countFor (load_acquisition_from_csv rows) w =
      (rows.filter (fun row => row.wavelength == w && isIncomplete row.status)).length ∧
    countFor (load_acquisition_from_csv rows) w =
      (rows.filter (fun row => row.wavelength == w &&
        (row.status == "pending" || row.status == "timeout" ||
          row.status == "cancelled"))).length ∧
    load_acquisition_from_csv
      [⟨"500", "completed"⟩, ⟨"500", "pending"⟩, ⟨"600", "timeout"⟩, ⟨"500", "cancelled"⟩] =
      [("500", 2), ("600", 1)] := by
  refine ⟨?_, ?_, by decide⟩
  · rw [load_acquisition_from_csv, load_csv_count_general]
    simp [countFor]
  · rw [load_acquisition_from_csv, load_csv_count_general]
    simp [countFor, isIncomplete]

/-! ## Cube aggregation engine

A hyperspectral cube is a numeric raster with a shape (rows, columns,
bands) and element data.  numpy array values are modelled with exact
rationals (`combined_cube / cube_count` is numpy true division, which is
floating-point even for integral inputs; over the rationals it is exact
division).  A loaded cube is the tuple
`(cube, metadata, wavelength, i, rgb_path)` stored in `loaded_cubes`
(line 296). -/

structure Cube where
  shape : List Nat
  data : List Rat
deriving DecidableEq, Repr

structure LoadedCube where
  cube : Cube
  meta : String
  wavelength : String
  picId : String
  rgbPath : String

/-- Element-wise `combined_cube += cube_data`; only executed after the
shape assertion has passed, so the result keeps the accumulator shape. -/
def cubeAdd (a b : Cube) : Cube :=
  { shape := a.shape, data := List.zipWith (fun x y => x + y) a.data b.data }

@[simp]
theorem cubeAdd_shape (a b : Cube) : (cubeAdd a b).shape = a.shape := rfl

/-- The accumulation loop of `sum_selected_cubes` (lines 453-465): the
first selected cube seeds the accumulator, each further cube is
shape-checked by `assert` and added. -/
def sumAccum (acc : Cube) : List LoadedCube → Except String Cube
  | [] => .ok acc
  | lc :: rest =>
    if acc.shape = lc.cube.shape then sumAccum (cubeAdd acc lc.cube) rest
    else .error "Cubes must have the same dimensions for summing."

/-- Embedding of `sum_selected_cubes` (lines 444-476) on the selected
cubes, in selection order.  The result pairs the outcome (summed cube and
the first cube's metadata, or the assertion message) with the list of
artifact files written; the RGB preview is written only after the loop
completes, so an assertion failure writes nothing. -/
def sum_selected_cubes (sel : List LoadedCube) : Except String (Cube × String) × List String :=
  match sel with
  | [] => (.error "No images selected for summing.", [])
  | lc :: rest =>
    match sumAccum lc.cube rest with
    | .ok c => (.ok (c, lc.meta), ["summed_rgb_image.png"])
    | .error msg => (.error msg, [])

/-- The accumulation loop of `average_selected_cubes` (lines 489-503); the
first selected cube is copied into the accumulator. -/
def avgAccum (acc : Cube) : List LoadedCube → Except String Cube
  | [] => .ok acc
  | lc :: rest =>
    if acc.shape = lc.cube.shape then avgAccum (cubeAdd acc lc.cube) rest
    else .error "Cubes must have the same dimensions for averaging."

/-- Embedding of `average_selected_cubes` (lines 479-517): accumulate,
then divide element-wise by the number of cubes (`combined_cube /
cube_count`, numpy true division). -/
def average_selected_cubes (sel : List LoadedCube) :
    Except String (Cube × String) × List String :=
  match sel with
  | [] => (.error "No images selected for averaging.", [])
  | lc :: rest =>
    match avgAccum lc.cube rest with
    | .ok c =>
      (.ok ({ shape := c.shape, data := c.data.map (fun x => x / (sel.length : Rat)) }, lc.meta),
        ["averaged_rgb_image.png"])
    | .error msg => (.error msg, [])

theorem zipWith_add_map_mul (q : Rat) :
    ∀ (l : List Rat), List.zipWith (fun x y => x + y) (l.map (fun x => x * q)) l =
      l.map (fun x => x * (q + 1)) := by
  intro l
  induction l with
  | nil => rfl
  | cons x xs ih =>
    simp only [List.map_cons, List.zipWith_cons_cons, ih, List.cons.injEq, and_true]
    ring

theorem avgAccum_replicate (c : Cube) : ∀ (j n : Nat) (lc : LoadedCube), lc.cube = c →
    avgAccum { shape := c.shape, data := c.data.map (fun x => x * ((n : Rat) + 1)) }
      (List.replicate j lc) =
    .ok { shape := c.shape, data := c.data.map (fun x => x * ((n : Rat) + 1 + (j : Rat))) } := by
  intro j
  induction j with
  | zero =>
    intro n lc _
    simp [avgAccum]
  | succ j ih =>
    intro n lc hlc
    rw [List.replicate_succ]
    simp only [avgAccum, hlc, if_pos rfl]
    have hadd : cubeAdd { shape := c.shape, data := c.data.map (fun x => x * ((n : Rat) + 1)) }
        c = { shape := c.shape, data := c.data.map (fun x => x * ((n : Rat) + 1 + 1)) } := by
      simp only [cubeAdd, zipWith_add_map_mul]
    have hcast : ((n : Rat) + 1 + 1) = (((n + 1 : Nat) : Rat) + 1) := by
      push_cast
      ring
    rw [hadd, hcast, ih (n + 1) lc hlc]
    refine congrArg Except.ok ?_
    refine congrArg (Cube.mk c.shape) ?_
    apply List.map_congr_left
    intro x _
    push_cast
    ring

/-- C7: averaging `k` identical cubes divides the accumulated sum by `k`
with exact (true, not integer) division, so the result equals the input
cube exactly, with the first cube's metadata, and the preview artifact is
written. -/
theorem C7_average_identical (lc : LoadedCube) (k : Nat) (hk : 0 < k) :
    average_selected_cubes (List.replicate k lc) =
      (.ok (lc.cube, lc.meta), ["averaged_rgb_image.png"]) := by
  obtain ⟨j, rfl⟩ : ∃ j, k = j + 1 := ⟨k - 1, by omega⟩
  have hfun : (fun x : Rat => x * (((0 : Nat) : Rat) + 1)) = fun x => x := by
    funext x
    norm_num
  have h0 : lc.cube = Cube.mk lc.cube.shape
      (lc.cube.data.map (fun x => x * (((0 : Nat) : Rat) + 1))) := by
    rw [hfun]
    exact (congrArg (Cube.mk lc.cube.shape) (List.map_id' lc.cube.data)).symm
  have hstart : avgAccum lc.cube (List.replicate j lc) =
      .ok (Cube.mk lc.cube.shape
        (lc.cube.data.map (fun x => x * (((0 : Nat) : Rat) + 1 + (j : Rat))))) := by
    conv_lhs => rw [h0]
    exact avgAccum_replicate lc.cube j 0 lc rfl
  rw [List.replicate_succ]
  simp only [average_selected_cubes, hstart]
  have hdata : (lc.cube.data.map (fun x => x * (((0 : Nat) : Rat) + 1 + (j : Rat)))).map
      (fun x => x / (((lc :: List.replicate j lc).length : Nat) : Rat)) = lc.cube.data := by
    rw [List.map_map]
    have hcomp : ((fun x => x / (((lc :: List.replicate j lc).length : Nat) : Rat)) ∘
        (fun x => x * (((0 : Nat) : Rat) + 1 + (j : Rat)))) = fun x => x := by
      funext x
      have hlen : (lc :: List.replicate j lc).length = j + 1 := by simp
      rw [hlen]
      push_cast
      simp only [Function.comp_apply]
      rw [div_eq_iff (by positivity : ((j : Rat) + 1) ≠ 0)]
      ring
    rw [hcomp]
    exact List.map_id' lc.cube.data
  rw [hdata]

/-- C7 witness: averaging two copies of a concrete integral-valued cube
returns that cube exactly. -/
theorem C7_average_identical_witness :
    average_selected_cubes
      (List.replicate 2 ⟨⟨[1, 1, 2], [1, 2]⟩, "m", "500", "1", "rgb.png"⟩) =
      (.ok (⟨[1, 1, 2], [1, 2]⟩, "m"), ["averaged_rgb_image.png"]) :=
  C7_average_identical ⟨⟨[1, 1, 2], [1, 2]⟩, "m", "500", "1", "rgb.png"⟩ 2 (by decide)

/-! ## Per-wavelength batch combine

`add_cubes_for_same_wavelength` (lines 520-559) splits each folder name on
underscores and takes the third part as the wavelength (folders with fewer
than three parts are skipped), groups the folders per wavelength in
dictionary insertion order, and for each group loads the cubes, asserts
shape equality against the accumulated cube (the assertion message names
the offending folder), sums them, and writes a combined preview and a
combined cube artifact for that group before moving to the next group.
`loadCube` abstracts `envi.open(...).load()`; metadata propagation is not
needed by any claim and is elided. -/

/-- `parts = folder.split('_'); wavelength = parts[2]` guarded by
`len(parts) >= 3` (lines 525-527). -/
def parseWavelength (folder : String) : Option String :=
  match folder.data.splitOn '_' with
  | _ :: _ :: c :: _ => some (String.mk c)
  | _ => none

/-- `wavelength_dict[wavelength].append(folder)` with list creation on
first sight (lines 528-530), preserving dictionary insertion order. -/
def addToGroup (w folder : String) : List (String × List String) → List (String × List String)
  | [] => [(w, [folder])]
  | (w', fs) :: rest =>
    if w' = w then (w', fs ++ [folder]) :: rest else (w', fs) :: addToGroup w folder rest

/-- The grouping loop of lines 523-530. -/
def groupFolders (folders : List String) : List (String × List String) :=
  folders.foldl (fun d folder =>
    match parseWavelength folder with
    | some w => addToGroup w folder d
    | none => d) []

/-- The per-group accumulation loop (lines 536-550): the first folder seeds
the accumulator, each further folder is shape-checked by an assert whose
message names that folder. -/
def batchAccum (loadCube : String → Cube) (acc : Cube) : List String → Except String Cube
  | [] => .ok acc
  | folder :: rest =>
    if acc.shape = (loadCube folder).shape then
      batchAccum loadCube (cubeAdd acc (loadCube folder)) rest
    else .error ("Cubes must have the same dimensions: " ++ folder)

/-- The per-wavelength loop of lines 532-559: each group is accumulated and
its two artifacts written before the next group starts; an assertion abort
leaves the artifacts of the groups already finished.  A group with an
empty folder list never arises from `groupFolders` and is skipped. -/
def batchLoop (loadCube : String → Cube) (proj date : String) :
    List (String × List String) → Except String Unit × List String
  | [] => (.ok (), [])
  | (w, fs) :: rest =>
    match fs with
    | [] => batchLoop loadCube proj date rest
    | f0 :: frest =>
      match batchAccum loadCube (loadCube f0) frest with
      | .error m => (.error m, [])
      | .ok _ =>
        let res := batchLoop loadCube proj date rest
        (res.1, (proj ++ "_" ++ date ++ "_" ++ w ++ "_combined.png") ::
          (proj ++ "_" ++ date ++ "_" ++ w ++ "_union.hdr") :: res.2)

/-- Embedding of `add_cubes_for_same_wavelength` (lines 520-559). -/
def add_cubes_for_same_wavelength (loadCube : String → Cube) (proj date : String)
    (folders : List String) : Except String Unit × List String :=
  batchLoop loadCube proj date (groupFolders folders)

theorem sumAccum_error_of_mismatch : ∀ (rest : List LoadedCube) (acc : Cube),
    (∃ x ∈ rest, x.cube.shape ≠ acc.shape) →
    sumAccum acc rest = .error "Cubes must have the same dimensions for summing." := by
  intro rest
  induction rest with
  | nil => intro acc h; simp at h
  | cons lc rest ih =>
    intro acc h
    by_cases hs : acc.shape = lc.cube.shape
    · obtain ⟨x, hx, hxs⟩ := h
      rcases List.mem_cons.mp hx with hx | hx
      · subst hx
        exact absurd hs.symm hxs
      · simp only [sumAccum, if_pos hs]
        exact ih (cubeAdd acc lc.cube) ⟨x, hx, by simpa using hxs⟩
    · simp [sumAccum, hs]

theorem sumAccum_ok_shapes : ∀ (rest : List LoadedCube) (acc c : Cube),
    sumAccum acc rest = .ok c →
    c.shape = acc.shape ∧ ∀ x ∈ rest, x.cube.shape = acc.shape := by
  intro rest
  induction rest with
  | nil =>
    intro acc c h
    simp only [sumAccum] at h
    injection h with h
    subst h
    exact ⟨rfl, by simp⟩
  | cons lc rest ih =>
    intro acc c h
    by_cases hs : acc.shape = lc.cube.shape
    · simp only [sumAccum, if_pos hs] at h
      obtain ⟨h1, h2⟩ := ih (cubeAdd acc lc.cube) c h
      refine ⟨by simpa using h1, ?_⟩
      intro x hx
      rcases List.mem_cons.mp hx with hx | hx
      · rw [hx, ← hs]
      · simpa using h2 x hx
    · simp [sumAccum, hs] at h

theorem avgAccum_error_of_mismatch : ∀ (rest : List LoadedCube) (acc : Cube),
    (∃ x ∈ rest, x.cube.shape ≠ acc.shape) →
    avgAccum acc rest = .error "Cubes must have the same dimensions for averaging." := by
  intro rest
  induction rest with
  | nil => intro acc h; simp at h
  | cons lc rest ih =>
    intro acc h
    by_cases hs : acc.shape = lc.cube.shape
    · obtain ⟨x, hx, hxs⟩ := h
      rcases List.mem_cons.mp hx with hx | hx
      · subst hx
        exact absurd hs.symm hxs
      · simp only [avgAccum, if_pos hs]
        exact ih (cubeAdd acc lc.cube) ⟨x, hx, by simpa using hxs⟩
    · simp [avgAccum, hs]

theorem avgAccum_ok_shapes : ∀ (rest : List LoadedCube) (acc c : Cube),
    avgAccum acc rest = .ok c →
    c.shape = acc.shape ∧ ∀ x ∈ rest, x.cube.shape = acc.shape := by
  intro rest
  induction rest with
  | nil =>
    intro acc c h
    simp only [avgAccum] at h
    injection h with h
    subst h
    exact ⟨rfl, by simp⟩
  | cons lc rest ih =>
    intro acc c h
    by_cases hs : acc.shape = lc.cube.shape
    · simp only [avgAccum, if_pos hs] at h
      obtain ⟨h1, h2⟩ := ih (cubeAdd acc lc.cube) c h
      refine ⟨by simpa using h1, ?_⟩
      intro x hx
      rcases List.mem_cons.mp hx with hx | hx
      · rw [hx, ← hs]
      · simpa using h2 x hx
    · simp [avgAccum, hs] at h

theorem batchAccum_error (loadCube : String → Cube) : ∀ (fs : List String) (acc : Cube)
    (m : String), batchAccum loadCube acc fs = .error m →
    ∃ f ∈ fs, m = "Cubes must have the same dimensions: " ++ f := by
  intro fs
  induction fs with
  | nil => intro acc m h; simp [batchAccum] at h
  | cons f rest ih =>
    intro acc m h
    by_cases hs : acc.shape = (loadCube f).shape
    · simp only [batchAccum, if_pos hs] at h
      obtain ⟨g, hg, hm⟩ := ih (cubeAdd acc (loadCube f)) m h
      exact ⟨g, List.mem_cons_of_mem f hg, hm⟩
    · simp only [batchAccum, if_neg hs] at h
      injection h with h
      exact ⟨f, List.mem_cons_self f rest, h.symm⟩

theorem addToGroup_mem (w folder : String) : ∀ (d : List (String × List String))
    (w' : String) (fs' : List String) (f : String),
    (w', fs') ∈ addToGroup w folder d → f ∈ fs' →
    (∃ fs₀, (w', fs₀) ∈ d ∧ f ∈ fs₀) ∨ f = folder := by
  intro d
  induction d with
  | nil =>
    intro w' fs' f hmem hf
    simp only [addToGroup, List.mem_singleton] at hmem
    obtain ⟨h1, h2⟩ := Prod.mk.injEq _ _ _ _ ▸ hmem
    subst h2
    exact Or.inr (List.mem_singleton.mp hf)
  | cons e rest ih =>
    obtain ⟨w₀, fs₀⟩ := e
    intro w' fs' f hmem hf
    by_cases hw : w₀ = w
    · simp only [addToGroup, if_pos hw] at hmem
      rcases List.mem_cons.mp hmem with hmem | hmem
      · obtain ⟨h1, h2⟩ := Prod.mk.injEq _ _ _ _ ▸ hmem
        subst h1
        subst h2
        rcases List.mem_append.mp hf with hf | hf
        · exact Or.inl ⟨fs₀, List.mem_cons_self _ _, hf⟩
        · exact Or.inr (List.mem_singleton.mp hf)
      · exact Or.inl ⟨fs', List.mem_cons_of_mem _ hmem, hf⟩
    · simp only [addToGroup, if_neg hw] at hmem
      rcases List.mem_cons.mp hmem with hmem | hmem
      · obtain ⟨h1, h2⟩ := Prod.mk.injEq _ _ _ _ ▸ hmem
        subst h1
        subst h2
        exact Or.inl ⟨fs', List.mem_cons_self _ _, hf⟩
      · rcases ih w' fs' f hmem hf with ⟨fs₁, hfs₁, hffs₁⟩ | hfold
        · exact Or.inl ⟨fs₁, List.mem_cons_of_mem _ hfs₁, hffs₁⟩
        · exact Or.inr hfold

theorem groupFolders_mem_general : ∀ (folders : List String)
    (d : List (String × List String)) (w : String) (fs : List String) (f : String),
    (w, fs) ∈ folders.foldl (fun d folder =>
      match parseWavelength folder with
      | some w => addToGroup w folder d
      | none => d) d → f ∈ fs →
    (∃ fs₀, (w, fs₀) ∈ d ∧ f ∈ fs₀) ∨ f ∈ folders := by
  intro folders
  induction folders with
  | nil =>
    intro d w fs f hmem hf
    exact Or.inl ⟨fs, hmem, hf⟩
  | cons folder rest ih =>
    intro d w fs f hmem hf
    simp only [List.foldl_cons] at hmem
    rcases ih _ w fs f hmem hf with hd | hrest
    · cases hp : parseWavelength folder with
      | some wv =>
        rw [hp] at hd
        obtain ⟨fs₀, hfs₀, hffs₀⟩ := hd
        rcases addToGroup_mem wv folder d w fs₀ f hfs₀ hffs₀ with hd' | hfold
        · exact Or.inl hd'
        · exact Or.inr (hfold ▸ List.mem_cons_self folder rest)
      | none =>
        rw [hp] at hd
        exact Or.inl hd
    · exact Or.inr (List.mem_cons_of_mem folder hrest)

theorem batchLoop_error_msg (loadCube : String → Cube) (proj date : String) :
    ∀ (groups : List (String × List String)) (m : String),
    (batchLoop loadCube proj date groups).1 = .error m →
    ∃ w fs f, (w, fs) ∈ groups ∧ f ∈ fs ∧
      m = "Cubes must have the same dimensions: " ++ f := by
  intro groups
  induction groups with
  | nil => intro m h; simp [batchLoop] at h
  | cons g rest ih =>
    obtain ⟨w, fs⟩ := g
    intro m h
    cases fs with
    | nil =>
      simp only [batchLoop] at h
      obtain ⟨w', fs', f, hmem, hf, hm⟩ := ih m h
      exact ⟨w', fs', f, List.mem_cons_of_mem _ hmem, hf, hm⟩
    | cons f0 frest =>
      simp only [batchLoop] at h
      cases hb : batchAccum loadCube (loadCube f0) frest with
      | error m' =>
        rw [hb] at h
        simp only at h
        injection h with h
        subst h
        obtain ⟨f, hf, hm⟩ := batchAccum_error loadCube frest (loadCube f0) m' hb
        exact ⟨w, f0 :: frest, f, List.mem_cons_self _ _, List.mem_cons_of_mem f0 hf, hm⟩
      | ok c =>
        rw [hb] at h
        simp only at h
        obtain ⟨w', fs', f, hmem, hf, hm⟩ := ih m h
        exact ⟨w', fs', f, List.mem_cons_of_mem _ hmem, hf, hm⟩

/-- C6 counterexample: the claim fails on the code in two places.  First,
summing two mismatched cubes labelled `700_1` and `700_2` aborts with the
fixed assertion message `Cubes must have the same dimensions for summing.`,
which names neither offending identifier.  Second, in per-wavelength batch
mode a mismatch inside the second wavelength group aborts with the
offending folder named, but the artifacts of the first, already finished
group have been written, so the operation is not artifact-free. -/
theorem C6_counterexample :
    (sum_selected_cubes
      [⟨⟨[1, 1, 2], [1, 2]⟩, "m1", "700", "1", "r1"⟩,
       ⟨⟨[1, 1, 3], [1, 2, 3]⟩, "m2", "700", "2", "r2"⟩]).1 =
      .error "Cubes must have the same dimensions for summing." ∧
    ¬ List.IsInfix "700_1".data "Cubes must have the same dimensions for summing.".data ∧
    ¬ List.IsInfix "700_2".data "Cubes must have the same dimensions for summing.".data ∧
    (add_cubes_for_same_wavelength
      (fun folder => if folder = "x_1_600_2" then ⟨[1, 1, 3], []⟩ else ⟨[1, 1, 2], []⟩)
      "p" "d" ["x_1_500_1", "x_1_500_2", "x_1_600_1", "x_1_600_2"]).1 =
      .error "Cubes must have the same dimensions: x_1_600_2" ∧
    (add_cubes_for_same_wavelength
      (fun folder => if folder = "x_1_600_2" then ⟨[1, 1, 3], []⟩ else ⟨[1, 1, 2], []⟩)
      "p" "d" ["x_1_500_1", "x_1_500_2", "x_1_600_1", "x_1_600_2"]).2 =
      ["p_d_500_combined.png", "p_d_500_union.hdr"] := by
  refine ⟨by rfl, by decide, by decide, by rfl, by rfl⟩

/-- C6 (amended): on a shape mismatch each combine mode aborts with an
assertion failure and never truncates or reshapes any cube (a successful
combine certifies that every participating cube shares the first cube's
shape); the sum and average modes write no output artifact and use a fixed
message that names no identifier, while the batch mode's message names the
offending folder (its name is a substring of the message); batch-mode
artifacts of wavelength groups finished before the failing group remain
written, so only the sum and average modes are artifact-free on failure. -/
theorem C6_shape_mismatch_behaviour :
    (∀ (lc : LoadedCube) (rest : List LoadedCube),
      (∃ x ∈ rest, x.cube.shape ≠ lc.cube.shape) →
      sum_selected_cubes (lc :: rest) =
        (.error "Cubes must have the same dimensions for summing.", [])) ∧
    (∀ (lc : LoadedCube) (rest : List LoadedCube),
      (∃ x ∈ rest, x.cube.shape ≠ lc.cube.shape) →
      average_selected_cubes (lc :: rest) =
        (.error "Cubes must have the same dimensions for averaging.", [])) ∧
    (∀ (loadCube : String → Cube) (proj date : String) (folders : List String) (m : String),
      (add_cubes_for_same_wavelength loadCube proj date folders).1 = .error m →
      ∃ f ∈ folders, m = "Cubes must have the same dimensions: " ++ f ∧
        List.IsInfix f.data m.data) ∧
    (∀ (lc : LoadedCube) (rest : List LoadedCube) (c : Cube) (meta : String)
      (arts : List String), sum_selected_cubes (lc :: rest) = (.ok (c, meta), arts) →
      c.shape = lc.cube.shape ∧ ∀ x ∈ rest, x.cube.shape = lc.cube.shape) ∧
    (∀ (lc : LoadedCube) (rest : List LoadedCube) (c : Cube) (meta : String)
      (arts : List String), average_selected_cubes (lc :: rest) = (.ok (c, meta), arts) →
      c.shape = lc.cube.shape ∧ ∀ x ∈ rest, x.cube.shape = lc.cube.shape) := by
  refine ⟨?_, ?_, ?_, ?_, ?_⟩
  · intro lc rest h
    simp only [sum_selected_cubes, sumAccum_error_of_mismatch rest lc.cube h]
  · intro lc rest h
    simp only [average_selected_cubes, avgAccum_error_of_mismatch rest lc.cube h]
  · intro loadCube proj date folders m h
    obtain ⟨w, fs, f, hmem, hf, hm⟩ :=
      batchLoop_error_msg loadCube proj date (groupFolders folders) m h
    have hff : f ∈ folders := by
      rcases groupFolders_mem_general folders [] w fs f hmem hf with ⟨fs₀, hfs₀, _⟩ | hff
      · simp at hfs₀
      · exact hff
    refine ⟨f, hff, hm, ?_⟩
    rw [hm]
    exact ⟨"Cubes must have the same dimensions: ".data, [], by simp⟩
  · intro lc rest c meta arts h
    cases hacc : sumAccum lc.cube rest with
    | error m =>
      simp only [sum_selected_cubes, hacc] at h
      exact absurd (congrArg Prod.fst h) (by simp)
    | ok c' =>
      simp only [sum_selected_cubes, hacc] at h
      have hc : c' = c := by
        have := congrArg Prod.fst h
        simp only at this
        injection this with this
        exact (congrArg Prod.fst this)
      subst hc
      exact sumAccum_ok_shapes rest lc.cube c' hacc
  · intro lc rest c meta arts h
    cases hacc : avgAccum lc.cube rest with
    | error m =>
      simp only [average_selected_cubes, hacc] at h
      exact absurd (congrArg Prod.fst h) (by simp)
    | ok c' =>
      simp only [average_selected_cubes, hacc] at h
      have hc : (Cube.mk c'.shape
          (c'.data.map (fun x => x / (((lc :: rest).length : Nat) : Rat)))) = c := by
        have := congrArg Prod.fst h
        simp only at this
        injection this with this
        exact (congrArg Prod.fst this)
      obtain ⟨h1, h2⟩ := avgAccum_ok_shapes rest lc.cube c' hacc
      rw [← hc]
      exact ⟨h1, h2⟩

/-- C6 witness: the amended behaviour instantiated on concrete cubes: sum
and average failure with no artifacts on a mismatched pair, the batch
message naming a folder of the input, and a successful singleton sum
certifying the shared shape. -/
theorem C6_shape_mismatch_behaviour_witness :
    sum_selected_cubes
      [⟨⟨[1, 1, 2], [1, 2]⟩, "m1", "700", "1", "r1"⟩,
       ⟨⟨[1, 1, 3], [1, 2, 3]⟩, "m2", "700", "2", "r2"⟩] =
      (.error "Cubes must have the same dimensions for summing.", []) ∧
    average_selected_cubes
      [⟨⟨[1, 1, 2], [1, 2]⟩, "m1", "700", "1", "r1"⟩,
       ⟨⟨[1, 1, 3], [1, 2, 3]⟩, "m2", "700", "2", "r2"⟩] =
      (.error "Cubes must have the same dimensions for averaging.", []) ∧
    (∃ f ∈ ["x_1_500_1", "x_1_500_2", "x_1_600_1", "x_1_600_2"],
      "Cubes must have the same dimensions: x_1_600_2" =
        "Cubes must have the same dimensions: " ++ f ∧
      List.IsInfix f.data "Cubes must have the same dimensions: x_1_600_2".data) ∧
    ((⟨[1, 1, 2], []⟩ : Cube).shape = (⟨[1, 1, 2], []⟩ : Cube).shape ∧
      ∀ x ∈ ([] : List LoadedCube), x.cube.shape = (⟨[1, 1, 2], []⟩ : Cube).shape) := by
  refine ⟨?_, ?_, ?_, ?_⟩
  · exact C6_shape_mismatch_behaviour.1
      ⟨⟨[1, 1, 2], [1, 2]⟩, "m1", "700", "1", "r1"⟩
      [⟨⟨[1, 1, 3], [1, 2, 3]⟩, "m2", "700", "2", "r2"⟩] (by decide)
  · exact C6_shape_mismatch_behaviour.2.1
      ⟨⟨[1, 1, 2], [1, 2]⟩, "m1", "700", "1", "r1"⟩
      [⟨⟨[1, 1, 3], [1, 2, 3]⟩, "m2", "700", "2", "r2"⟩] (by decide)
  · exact C6_shape_mismatch_behaviour.2.2.1
      (fun folder => if folder = "x_1_600_2" then ⟨[1, 1, 3], []⟩ else ⟨[1, 1, 2], []⟩)
      "p" "d" ["x_1_500_1", "x_1_500_2", "x_1_600_1", "x_1_600_2"]
      "Cubes must have the same dimensions: x_1_600_2" (by rfl)
  · exact C6_shape_mismatch_behaviour.2.2.2.1
      ⟨⟨[1, 1, 2], []⟩, "m1", "700", "1", "r1"⟩ [] ⟨[1, 1, 2], []⟩ "m1"
      ["summed_rgb_image.png"] (by rfl)

/-! ## Aliasing model of the aggregation loops

To reason about in-place mutation, the `loaded_cubes` store is modelled as
a heap: a list of cube values whose positions are the store indices, with
`selected_images` a list of indices into it.  Python name binding
(`combined_cube = cube_data`, line 460) aliases the existing array without
copying; numpy `combined_cube += cube_data` (line 465) mutates the array
the name is bound to in place (`List.set` on the heap cell); and
`cube_data.copy()` (line 496) allocates a fresh cell.  The final
`combined_cube = combined_cube / cube_count` of the average path (line
507) rebinds the name to a freshly allocated array and touches no heap
cell, so it is not part of the heap-effect model. -/

/-- Heap-level accumulation loop of `sum_selected_cubes` (lines 453-465):
the first selected index becomes the accumulator alias (no heap change);
every further index is added in place into the aliased cell. -/
def sumLoopHeap : List Nat → List Cube → Option Nat → Except String (List Cube × Option Nat)
  | [], heap, acc => .ok (heap, acc)
  | idx :: rest, heap, none => sumLoopHeap rest heap (some idx)
  | idx :: rest, heap, some r =>
    match heap[r]?, heap[idx]? with
    | some cr, some ci =>
      if cr.shape = ci.shape then sumLoopHeap rest (heap.set r (cubeAdd cr ci)) (some r)
      else .error "Cubes must have the same dimensions for summing."
    | _, _ => .error "IndexError"

/-- Heap effect of `sum_selected_cubes`: the returned heap is the
`loaded_cubes` store after the loop, and the returned index is the cell
the result aliases. -/
def sum_selected_cubes_heap (heap : List Cube) (selected : List Nat) :
    Except String (List Cube × Option Nat) :=
  sumLoopHeap selected heap none

/-- Heap-level accumulation loop of `average_selected_cubes` (lines
489-503): the first selected cube is copied into a fresh cell
(`cube_data.copy()`, line 496), and further cubes are added in place into
that fresh cell only. -/
def avgLoopHeap : List Nat → List Cube → Option Nat → Except String (List Cube × Option Nat)
  | [], heap, acc => .ok (heap, acc)
  | idx :: rest, heap, none =>
    match heap[idx]? with
    | some ci => avgLoopHeap rest (heap ++ [ci]) (some heap.length)
    | none => .error "IndexError"
  | idx :: rest, heap, some r =>
    match heap[r]?, heap[idx]? with
    | some cr, some ci =>
      if cr.shape = ci.shape then avgLoopHeap rest (heap.set r (cubeAdd cr ci)) (some r)
      else .error "Cubes must have the same dimensions for averaging."
    | _, _ => .error "IndexError"

/-- Heap effect of `average_selected_cubes`. -/
def average_selected_cubes_heap (heap : List Cube) (selected : List Nat) :
    Except String (List Cube × Option Nat) :=
  avgLoopHeap selected heap none

/-- C8 evaluation at the failing input: with two same-shaped cubes loaded
and both selected, sum mode leaves the store with its first cell
overwritten by the element-wise sum (the accumulator aliased the first
selected cube, so `+=` mutated it in place) while the result aliases cell
0; the mutated cell no longer holds its original values.  The average path
copies first, so both original cells survive and the accumulator is the
fresh cell 2. -/
theorem C8_sum_mutates_first_loaded_cube :
    sum_selected_cubes_heap [⟨[1, 1, 2], [1, 2]⟩, ⟨[1, 1, 2], [10, 20]⟩] [0, 1] =
      .ok ([⟨[1, 1, 2], [11, 22]⟩, ⟨[1, 1, 2], [10, 20]⟩], some 0) ∧
    (⟨[1, 1, 2], [11, 22]⟩ : Cube) ≠ ⟨[1, 1, 2], [1, 2]⟩ ∧
    average_selected_cubes_heap [⟨[1, 1, 2], [1, 2]⟩, ⟨[1, 1, 2], [10, 20]⟩] [0, 1] =
      .ok ([⟨[1, 1, 2], [1, 2]⟩, ⟨[1, 1, 2], [10, 20]⟩, ⟨[1, 1, 2], [11, 22]⟩], some 2) := by
  have hadd : cubeAdd ⟨[1, 1, 2], [1, 2]⟩ ⟨[1, 1, 2], [10, 20]⟩ =
      (⟨[1, 1, 2], [11, 22]⟩ : Cube) := by
    simp only [cubeAdd, List.zipWith_cons_cons, List.zipWith_nil_right]
    norm_num
  refine ⟨?_, ?_, ?_⟩
  · show sumLoopHeap [0, 1] [⟨[1, 1, 2], [1, 2]⟩, ⟨[1, 1, 2], [10, 20]⟩] none = _
    simp only [sumLoopHeap]
    norm_num [hadd, sumLoopHeap]
  · intro h
    have := congrArg Cube.data h
    simp at this
  · show avgLoopHeap [0, 1] [⟨[1, 1, 2], [1, 2]⟩, ⟨[1, 1, 2], [10, 20]⟩] none = _
    simp only [avgLoopHeap]
    norm_num [hadd, avgLoopHeap]

/-! ## Resume path and Python name resolution

`resume_acquisition` (lines 800-834) returns early when the operator
selects no folder; otherwise it sets `output_path` and calls
`check_previous_acquisition()`.  Python resolves a bare name at call time
against the module's bound global names; a name the module never binds
raises `NameError` at that point.  `module_defined_names` below lists
every top-level name `LaserSnapV2.py` binds: the imported module aliases,
the module-level variables of section 2, every `def`, and every name
assigned under a `global` declaration inside some function. -/

def module_defined_names : List String :=
  ["os", "shutil", "time", "datetime", "csv", "threading", "Path",
   "tk", "ttk", "filedialog", "messagebox", "pyvisa", "serial", "envi",
   "spy", "Image", "ImageTk", "ImageOps", "logging", "np",
   "SAVED_IMAGES_DIRECTORY", "before_snapshot", "loaded_cubes",
   "loaded_images", "selected_images", "available_wavelengths",
   "experiment_finished", "project_name", "output_path", "raw_data_folder",
   "tls_found", "golden_eye_found", "tls_device_address", "arduino_port",
   "trigger_string", "acquisition_log", "file_timeout", "acquisition_log_path",
   "sort_folders_by_modification", "create_acquisition_log_file",
   "update_acquisition_log", "wait_for_new_file", "update_status_label",
   "load_acquisition_from_csv", "select_raw_data_folder", "load_folder",
   "process_folder", "check_tls_device", "check_arduino_device", "find_tls",
   "find_golden_eye", "check_device_status", "send_trigger",
   "sum_selected_cubes", "average_selected_cubes",
   "add_cubes_for_same_wavelength", "save_rgb", "save_rgb_image",
   "save_cube", "save_averaged_cube", "execute_commands",
   "resume_acquisition", "execute_resumed_commands", "process_results",
   "add_row", "edit_selected_row", "delete_selected_row",
   "toggle_image_selection", "filter_images", "view_selected_cubes",
   "select_by_wavelength", "update_selection_ui", "update_wavelength_filters",
   "show_combined_image_popup", "show_averaged_image_popup", "take_snapshot",
   "open_project_window", "rename_and_copy_folders", "create_right_click_menu",
   "show_popup_menu", "setup_acquisition_tab", "setup_processing_tab",
   "resize_canvas", "main",
   "root", "tree", "wavelength_entry", "pictures_entry", "tls_status_label",
   "golden_eye_status_label", "execute_button", "process_button",
   "find_tls_button", "find_golden_eye_button", "right_click_menu",
   "raw_folder_label", "acquisition_status_label", "load_csv_button",
   "wavelength_filter", "wavelength_select_combobox", "sum_cubes_button",
   "average_cubes_button", "view_selected_button", "image_panel_frame",
   "canvas", "progress_label", "monitoring_thread", "stop_monitoring",
   "current_acquisition_index", "last_file_time"]

inductive ResumeOutcome where
  | noFolder
  | nameError (missing : String)
  | proceeded
deriving DecidableEq, Repr

/-- Embedding of `resume_acquisition` (lines 800-834): no folder selected
returns immediately; otherwise the first action after setting
`output_path` is the call `check_previous_acquisition()`, whose name
lookup against the module's bound names decides between proceeding into
the resume flow and raising `NameError`. -/
def resume_acquisition (selectedFolder : Option String) : ResumeOutcome :=
  match selectedFolder with
  | none => .noFolder
  | some _ =>
    if "check_previous_acquisition" ∈ module_defined_names then .proceeded
    else .nameError "check_previous_acquisition"

/-- C10: whenever the operator selects a folder, `resume_acquisition`
raises `NameError` on `check_previous_acquisition` before any resume work;
none of `check_previous_acquisition`, `resume_from_log`,
`monitor_raw_files` is defined anywhere in the module, so the resume and
recovery path can never reach the sequencer. -/
theorem C10_resume_raises_nameerror (folder : String) :
    resume_acquisition (some folder) = .nameError "check_previous_acquisition" ∧
    "check_previous_acquisition" ∉ module_defined_names ∧
    "resume_from_log" ∉ module_defined_names ∧
    "monitor_raw_files" ∉ module_defined_names ∧
    resume_acquisition (some folder) ≠ .proceeded := by
  have hmem : "check_previous_acquisition" ∉ module_defined_names := by decide
  refine ⟨?_, hmem, by decide, by decide, ?_⟩
  · simp [resume_acquisition, hmem]
  · simp [resume_acquisition, hmem]

end LaserSnap
